import Mathlib

/-!
# AegisQuant core — verification development

Shallow embedding of the AegisQuant market-regime core and of the
record contracts its web UI consumes, together with proofs settling the
specification's claims about them.

The repository snapshot contains the web client (`apps/web`); the numeric
backend behind `http://localhost:8000` is not part of the snapshot, so the
pipeline stages (RollingStatistics, FeatureEngine, DataQualityChecker,
RegimeModel, RegimeStatsEngine, BacktestEngine) are modelled from the
specification text, as flagged in each doc comment.  The record field
names and `computeRiskOffBands` are embedded directly from the source
(`src/unnamed/part_004`, `src/apps/web/app/data/page.tsx`).
-/

namespace AegisQuant

/-! ## Record field names, embedded from the UI source -/

/-- Field names of the `RegimePoint` consumer type
(`src/unnamed/part_004` lines 21–25). -/
def regimePointFields : List String := ["date", "z_vol", "risk_off_prob"]

/-- Field names of the `FeaturePoint` consumer type
(`src/unnamed/part_004` lines 27–33). -/
def featurePointFields : List String :=
  ["date", "close", "drawdown", "vol_20", "mom_60"]

/-- Field names of the `EquityPoint` consumer type
(`src/unnamed/part_004` lines 35–42). -/
def equityPointFields : List String :=
  ["date", "bh", "regime_gross", "regime_net", "pos", "trade"]

/-- The quality-report keys the data page actually reads
(`src/apps/web/app/data/page.tsx` lines 49–55: `quality.duplicate_dates`,
`quality.missing_business_days_count`). -/
def dataPageQualityFields : List String :=
  ["duplicate_dates", "missing_business_days_count"]

/-- The `EquityPoint` field names as the specification sentence states them
(spec §3: `{date, buy_hold_equity, regime_gross_equity, regime_net_equity,
position, trade_flag}`), written out for comparison with the source. -/
def specClaimedEquityPointFields : List String :=
  ["date", "buy_hold_equity", "regime_gross_equity", "regime_net_equity",
   "position", "trade_flag"]

/-- The quality-report keys the claim says the consumer keys off
(`duplicate_date_count`, `missing_business_day_count`), written out for
comparison with the source. -/
def specClaimedQualityFields : List String :=
  ["duplicate_date_count", "missing_business_day_count"]

/-! ## `computeRiskOffBands`, embedded from `src/unnamed/part_004` lines 74–96 -/

/-- A shaded risk-off band, `{x1, x2}` in the source. -/
structure Band where
  x1 : String
  x2 : String
deriving DecidableEq, Repr

/-- One iteration of the loop body of `computeRiskOffBands`
(`src/unnamed/part_004` lines 82–89): `isOff = probs[i] >= threshold`;
if off and no run is open, open one at the current date; if not off and a
run is open, emit `{x1: start, x2: dates[i]}` and close the run. -/
def bandsStep (t : ℚ) (acc : List Band × Option String) (dp : String × ℚ) :
    List Band × Option String :=
  if t ≤ dp.2 then
    match acc.2 with
    | none => (acc.1, some dp.1)
    | some s => (acc.1, some s)
  else
    match acc.2 with
    | none => (acc.1, none)
    | some s => (acc.1 ++ [⟨s, dp.1⟩], none)

/-- The post-loop fix-up of `computeRiskOffBands`
(`src/unnamed/part_004` lines 91–93): if a run is still open and the array
is nonempty, emit a final band ending at the last date. -/
def finishBands (acc : List Band × Option String) (lastDate : Option String) :
    List Band :=
  match acc.2, lastDate with
  | some s, some ld => acc.1 ++ [⟨s, ld⟩]
  | _, _ => acc.1

/-- `computeRiskOffBands` from `src/unnamed/part_004` lines 74–96: a left
fold of the loop body over the date/probability pairs, then the post-loop
fix-up against the last date. -/
def computeRiskOffBands (dates : List String) (probs : List ℚ) (t : ℚ) :
    List Band :=
  finishBands ((dates.zip probs).foldl (bandsStep t) ([], none)) dates.getLast?

/-- The claim's reading of `computeRiskOffBands`, written as a direct scan:
the state records, for an open run, its first date and the most recent date
seen.  One band per maximal run of consecutive probabilities `≥ threshold`;
an interior run ends exclusively at the first date after it, a run reaching
the end of the array ends inclusively at the array's last date. -/
def specBandsGo (t : ℚ) : Option (String × String) → List (String × ℚ) → List Band
  | none, [] => []
  | some (s, lastSeen), [] => [⟨s, lastSeen⟩]
  | none, (d, p) :: rest =>
      if t ≤ p then specBandsGo t (some (d, d)) rest
      else specBandsGo t none rest
  | some (s, _), (d, p) :: rest =>
      if t ≤ p then specBandsGo t (some (s, d)) rest
      else ⟨s, d⟩ :: specBandsGo t none rest

/-- Maximal-run reading of the banding computation over paired dates and
probabilities. -/
def specBands (t : ℚ) (dates : List String) (probs : List ℚ) : List Band :=
  specBandsGo t none (dates.zip probs)

/-- `Option` fallback, used to track the "last date seen so far" through
the banding fold. -/
def orElseOpt (a b : Option String) : Option String :=
  match a with
  | some x => some x
  | none => b

/-! ## RollingStatistics (spec §4.1) -/

/-- Modelled from the spec: the window `x[i−w+1..i]` that both rolling
statistics of §4.1 range over — the last `w` entries up to and including
index `i`. -/
def windowAt (x : List ℚ) (w i : ℕ) : List ℚ :=
  (x.take (i + 1)).drop (i + 1 - w)

/-- Modelled from the spec: `rolling_mean(x, w)` — for index `i ≥ w−1`, the
mean of `x[i−w+1..i]`; absent for `i < w−1` or past the end of the series
(§4.1). -/
def rollingMean (x : List ℚ) (w i : ℕ) : Option ℚ :=
  if w ≤ i + 1 ∧ i < x.length then
    some ((windowAt x w i).sum / (w : ℚ))
  else none

/-- Modelled from the spec: the sample variance of the window at `i` —
sum of squared deviations from the window's own rolling mean, divided by
`w − 1`, not `w` (§4.1); absent exactly where `rolling_mean` is. -/
def rollingVar (x : List ℚ) (w i : ℕ) : Option ℚ :=
  (rollingMean x w i).map fun m =>
    ((windowAt x w i).map fun v => (v - m) ^ 2).sum / ((w : ℚ) - 1)

/-- Modelled from the spec: `rolling_std(x, w)` — the square root of the
sample variance of the window (§4.1). -/
noncomputable def rollingStd (x : List ℚ) (w i : ℕ) : Option ℝ :=
  (rollingVar x w i).map fun v : ℚ => Real.sqrt ((v : ℝ))

/-- The sample standard deviation of a finite list as the claim phrases it:
squared deviations from the list's own mean, divided by `length − 1`, under
a square root. -/
noncomputable def sampleStdDev (l : List ℚ) : ℝ :=
  Real.sqrt ((((l.map fun v => (v - l.sum / (l.length : ℚ)) ^ 2).sum /
    ((l.length : ℚ) - 1) : ℚ) : ℝ))

/-! ## FeatureEngine (spec §4.2)

Modelled from the spec; the backend implementation is not in the snapshot.
Inputs are taken date-sorted (spec §3 invariant: "all row sequences are
sorted ascending by date before any windowed computation"), dates are
ISO days encoded as naturals, closes are taken present, and the two
real-valued transcendentals (natural log for returns/momentum, square root
for the volatility feature) are abstracted as function parameters `lg` and
`sq` — every claim settled against this engine depends only on the
combinator structure, never on their values. -/

/-- Modelled from the spec: a raw price row, restricted to the fields the
core consumes (spec §3: `date`, `close`, optional `volume`). -/
structure RawPriceRow where
  date : ℕ
  close : ℚ
  volume : Option ℚ
deriving DecidableEq, Repr, Inhabited

/-- Modelled from the spec: a `FeatureRow` (spec §3). -/
structure FeatureRow where
  date : ℕ
  close : ℚ
  volume : Option ℚ
  log_return : ℚ
  rolling_volatility : ℚ
  momentum : ℚ
  drawdown : ℚ
deriving DecidableEq, Repr, Inhabited

/-- The zero-filled log-return series of spec §4.2 step 3: `log_return[0]`
is undefined and replaced by 0 for the rolling window only;
`log_return[i] = lg(close[i]/close[i−1])` for `i ≥ 1`. -/
def logReturnFilled (lg : ℚ → ℚ) (closes : List ℚ) : List ℚ :=
  (List.range closes.length).map fun i =>
    if i = 0 then 0 else lg (closes.getD i 0 / closes.getD (i - 1) 0)

/-- Running maximum of the closes up to index `i` (spec §4.2 step 5). -/
def runningMax (closes : List ℚ) (i : ℕ) : ℚ :=
  (closes.take (i + 1)).foldr max (closes.getD i 0)

/-- Modelled from the spec: the FeatureEngine (spec §4.2).  For each index
of the date-sorted input it computes log return (defined for `i ≥ 1`),
rolling volatility (`sq` of the sample variance of the zero-filled log
returns over `v`, defined for `i ≥ v−1`), momentum
(`lg(close[i]/close[i−m])`, defined for `i ≥ m`), and drawdown
(`close[i]/running_max − 1`, always defined), and emits a `FeatureRow`
exactly where the first three are all defined (step 6). -/
def featureEngine (lg sq : ℚ → ℚ) (rows : List RawPriceRow) (v m : ℕ) :
    List FeatureRow :=
  let closes := rows.map (·.close)
  let lr := logReturnFilled lg closes
  (List.range rows.length).filterMap fun i =>
    match rollingVar lr v i,
        (if 1 ≤ i then some (lr.getD i 0) else none),
        (if m ≤ i then some (lg (closes.getD i 0 / closes.getD (i - m) 0))
         else none) with
    | some varv, some ret, some mom =>
        some { date := (rows.getD i default).date
               close := closes.getD i 0
               volume := (rows.getD i default).volume
               log_return := ret
               rolling_volatility := sq varv
               momentum := mom
               drawdown := closes.getD i 0 / runningMax closes i - 1 }
    | _, _, _ => none

/-- The feature row the engine attaches to index `i` when all three
windowed features are defined there. -/
def featureRowAt (lg sq : ℚ → ℚ) (rows : List RawPriceRow) (v m i : ℕ) :
    FeatureRow :=
  let closes := rows.map (·.close)
  let lr := logReturnFilled lg closes
  { date := (rows.getD i default).date
    close := closes.getD i 0
    volume := (rows.getD i default).volume
    log_return := lr.getD i 0
    rolling_volatility := sq ((rollingVar lr v i).getD 0)
    momentum := lg (closes.getD i 0 / closes.getD (i - m) 0)
    drawdown := closes.getD i 0 / runningMax closes i - 1 }

/-- A gap-free price series: each date is the previous date plus one. -/
def gapFree : List RawPriceRow → Bool
  | [] => true
  | [_] => true
  | a :: b :: rest => decide (b.date = a.date + 1) && gapFree (b :: rest)

/-! ## RegimeModel (spec §4.4)

Modelled from the spec; the backend implementation is not in the snapshot.
The rolling normalization of the volatility feature is computed over the
rational feature values; the z-score and the logistic transform live in
`ℝ` so that the sigmoid's genuine range property can be proved. -/

/-- The volatility feature series the regime model normalizes
(fixed to `rolling_volatility` in the baseline, spec §4.4). -/
def volSeries (rows : List FeatureRow) : List ℚ :=
  rows.map (·.rolling_volatility)

/-- Modelled from the spec: the logistic mapping `1/(1+e^{−x})`
(spec glossary). -/
noncomputable def sigmoid (x : ℝ) : ℝ :=
  1 / (1 + Real.exp (-x))

/-- Whether index `i` survives the regime model's emission policy: the
normalization window is full (so rolling mean/std are defined) and the
window's variance is positive — equivalently its standard deviation is
nonzero (spec §4.4: rows with a partial window or zero variance are
dropped). -/
def regimeEmitted (rows : List FeatureRow) (zw i : ℕ) : Bool :=
  match rollingVar (volSeries rows) zw i with
  | some v => decide (0 < v)
  | none => false

/-- The z-score the regime model attaches to index `i`:
`(value − rolling mean) / rolling std` (spec §4.4). -/
noncomputable def zAt (rows : List FeatureRow) (zw i : ℕ) : ℝ :=
  (((volSeries rows).getD i 0 - (rollingMean (volSeries rows) zw i).getD 0 : ℚ) : ℝ) /
    Real.sqrt (((rollingVar (volSeries rows) zw i).getD 0 : ℚ) : ℝ)

/-- The risk-off probability the regime model attaches to index `i`:
the sigmoid of `k` times the z-score (spec §4.4). -/
noncomputable def pAt (rows : List FeatureRow) (zw : ℕ) (k : ℝ) (i : ℕ) : ℝ :=
  sigmoid (k * zAt rows zw i)

/-- Modelled from the spec: a `RegimeRow` (spec §3). -/
structure RegimeRow where
  date : ℕ
  z_score : ℝ
  risk_off_probability : ℝ

/-- The regime row attached to index `i` of the feature sequence. -/
noncomputable def regimeRowAt (rows : List FeatureRow) (zw : ℕ) (k : ℝ) (i : ℕ) :
    RegimeRow :=
  ⟨(rows.getD i default).date, zAt rows zw i, pAt rows zw k i⟩

/-- Modelled from the spec: the RegimeModel (spec §4.4).  Over the
date-sorted feature sequence it emits, for exactly the indices where the
normalization window is full and its variance is nonzero, the z-score of
the volatility feature and its logistic transform; failing indices are
dropped, not null-filled. -/
noncomputable def regimeModel (rows : List FeatureRow) (zw : ℕ) (k : ℝ) :
    List RegimeRow :=
  (List.range rows.length).filterMap fun i =>
    match rollingVar (volSeries rows) zw i with
    | some v => if 0 < v then some (regimeRowAt rows zw k i) else none
    | none => none

/-! ## Inner join by date (spec §4.5/§4.6, design note §9)

Modelled from the spec: the join is by date-keyed lookup, dropping feature
rows with no matching regime row — inner-join semantics. -/

/-- A regime row as the statistics and backtest engines consume it: a
date-keyed risk-off probability, taken as rational data. -/
structure RegimeSignal where
  date : ℕ
  risk_off_prob : ℚ
deriving DecidableEq, Repr, Inhabited

/-- Modelled from the spec: inner-join a feature sequence and a regime
sequence on date; rows present in only one side are dropped (spec §4.5). -/
def joinByDate (fr : List FeatureRow) (rr : List RegimeSignal) :
    List (FeatureRow × RegimeSignal) :=
  fr.filterMap fun f => (rr.find? fun r => r.date = f.date).map fun r => (f, r)

/-! ## RegimeStatsEngine (spec §4.5)

Modelled from the spec; the backend implementation is not in the snapshot.
Annualized volatility needs a square root, abstracted as the function
parameter `sq` as in the feature engine. -/

/-- A joined row paired with its forward one-day return: the signal at
date `t` carries the `log_return` recorded at the chronologically next
row (spec §4.5); the final row has no next row and yields nothing. -/
structure StatRow where
  date : ℕ
  risk_off_prob : ℚ
  fwd_return : ℚ
deriving DecidableEq, Repr, Inhabited

/-- Modelled from the spec: attach forward returns — pair each joined row
with its successor and read the successor's `log_return`; the final row is
dropped (spec §4.5). -/
def forwardRows (j : List (FeatureRow × RegimeSignal)) : List StatRow :=
  (j.zip (j.drop 1)).map fun cn =>
    ⟨cn.1.1.date, cn.1.2.risk_off_prob, cn.2.1.log_return⟩

/-- The risk-on bucket: usable rows whose probability is below the
threshold (spec §4.5). -/
def riskOnRows (t : ℚ) (j : List (FeatureRow × RegimeSignal)) : List StatRow :=
  (forwardRows j).filter fun s => s.risk_off_prob < t

/-- The risk-off bucket: usable rows whose probability is at or above the
threshold (spec §4.5). -/
def riskOffRows (t : ℚ) (j : List (FeatureRow × RegimeSignal)) : List StatRow :=
  (forwardRows j).filter fun s => t ≤ s.risk_off_prob

/-- Modelled from the spec: per-bucket statistics (spec §3/§4.5) — below 5
samples the return/vol/sharpe fields are null; annualization is mean×252
and sample stdev×√252 with the square root abstracted as `sq`. -/
structure BucketStats where
  sample_count : ℕ
  coverage : ℚ
  mean_daily_return : Option ℚ
  ann_return : Option ℚ
  ann_vol : Option ℚ
  sharpe : Option ℚ
deriving DecidableEq, Repr

/-- Modelled from the spec: compute one bucket's statistics from its rows
and the total usable-row count (spec §4.5). -/
def bucketStats (sq : ℚ → ℚ) (rows : List StatRow) (total : ℕ) : BucketStats :=
  let n := rows.length
  let cov : ℚ := if total = 0 then 0 else (n : ℚ) / (total : ℚ)
  if n < 5 then
    { sample_count := n, coverage := cov, mean_daily_return := none
      ann_return := none, ann_vol := none, sharpe := none }
  else
    let rets := rows.map (·.fwd_return)
    let mean := rets.sum / (n : ℚ)
    let varq := ((rets.map fun r => (r - mean) ^ 2).sum) / ((n : ℚ) - 1)
    let annRet := mean * 252
    let annVol := sq (varq * 252)
    { sample_count := n, coverage := cov, mean_daily_return := some mean
      ann_return := some annRet, ann_vol := some annVol
      sharpe := if 0 < annVol then some (annRet / annVol) else none }

/-- Modelled from the spec: the RegimeStatsEngine report (spec §4.5). -/
structure StatsReport where
  usable_count : ℕ
  risk_on : BucketStats
  risk_off : BucketStats
deriving DecidableEq, Repr

/-- Modelled from the spec: the RegimeStatsEngine (spec §4.5) — inner-join
by date, attach forward one-day returns, drop the final row, partition by
the probability threshold and report per-bucket statistics. -/
def regimeStats (sq : ℚ → ℚ) (fr : List FeatureRow) (rr : List RegimeSignal)
    (t : ℚ) : StatsReport :=
  let j := joinByDate fr rr
  let usable := (forwardRows j).length
  { usable_count := usable
    risk_on := bucketStats sq (riskOnRows t j) usable
    risk_off := bucketStats sq (riskOffRows t j) usable }

/-! ## BacktestEngine (spec §4.6)

Modelled from the spec; the backend implementation is not in the snapshot.
Field names of the output points follow the consumer type in
`src/unnamed/part_004` lines 35–42. -/

/-- An equity-curve point as the research page consumes it
(`src/unnamed/part_004` lines 35–42): `{date, bh, regime_gross,
regime_net, pos, trade}`. -/
structure EquityPoint where
  date : ℕ
  bh : ℚ
  regime_gross : ℚ
  regime_net : ℚ
  pos : ℕ
  trade : ℕ
deriving DecidableEq, Repr, Inhabited

/-- Modelled from the spec: clamp the per-trade transaction cost to
`[0, 200]` basis points, silently (spec §4.6, §7 InvalidParameter). -/
def clampCost (c : ℚ) : ℚ :=
  max 0 (min c 200)

/-- Modelled from the spec: clamp the output row limit to `[1, 5000]`,
silently (spec §4.6, §7 InvalidParameter). -/
def clampLimit (l : ℕ) : ℕ :=
  max 1 (min l 5000)

/-- Modelled from the spec: the backtest loop over the joined, date-sorted
series after its first day (spec §4.6).  `prevC`/`prevPos` carry the prior
close and position; `ret[i] = close[i]/close[i−1] − 1`; `pos[i] = 1` iff
the day's own probability is below the threshold; a trade fires when the
position changes; the three curves compound multiplicatively, the net
curve paying `cost/10000` on trade days. -/
def btAux (t cost : ℚ) : List (ℕ × ℚ × ℚ) → ℚ → ℕ → ℚ → ℚ → ℚ → List EquityPoint
  | [], _, _, _, _, _ => []
  | (d, c, p) :: rest, prevC, prevPos, bh, g, nt =>
      let ret := c / prevC - 1
      let pos : ℕ := if p < t then 1 else 0
      let trade : ℕ := if pos ≠ prevPos then 1 else 0
      let bh1 := bh * (1 + ret)
      let g1 := g * (1 + ret * (pos : ℚ))
      let nt1 := nt * (1 + ret * (pos : ℚ) -
        (if trade = 1 then cost / 10000 else 0))
      ⟨d, bh1, g1, nt1, pos, trade⟩ :: btAux t cost rest c pos bh1 g1 nt1

/-- Modelled from the spec: the full equity series (spec §4.6).  Day 0 has
`ret[0] = 0`, no trade, and all three curves at 1.0; its position is taken
from its own signal. -/
def btSeries (t cost : ℚ) : List (ℕ × ℚ × ℚ) → List EquityPoint
  | [] => []
  | (d, c, p) :: rest =>
      let pos : ℕ := if p < t then 1 else 0
      ⟨d, 1, 1, 1, pos, 0⟩ :: btAux t cost rest c pos 1 1 1

/-- Total trade count of an equity series (spec §4.6). -/
def btTrades (pts : List EquityPoint) : ℕ :=
  (pts.map (·.trade)).sum

/-- The joined (date, close, probability) triples the backtest runs over. -/
def btJoin (fr : List FeatureRow) (rr : List RegimeSignal) : List (ℕ × ℚ × ℚ) :=
  (joinByDate fr rr).map fun fs => (fs.1.date, fs.1.close, fs.2.risk_off_prob)

/-- Modelled from the spec: drawdown series of an equity curve with its
running maximum threaded through (spec §4.6): `equity/running_max − 1`. -/
def ddAux (m : ℚ) : List ℚ → List ℚ
  | [] => []
  | e :: rest => (e / max m e - 1) :: ddAux (max m e) rest

/-- Modelled from the spec: max drawdown — the minimum over time of
`equity[i]/running_max(equity[0..i]) − 1` (spec §4.6); 0 for an empty
curve. -/
def maxDrawdown : List ℚ → ℚ
  | [] => 0
  | e :: rest => (ddAux e rest).foldl min (e / e - 1)

/-- Modelled from the spec: the BacktestEngine result, restricted to the
output rows and trade aggregate the claims range over (spec §4.6). -/
structure BacktestResult where
  points : List EquityPoint
  trades : ℕ
deriving DecidableEq, Repr

/-- Modelled from the spec: the BacktestEngine (spec §4.6).  Cost and
limit are clamped silently on entry; the equity series is computed over
the full joined series; the output rows are truncated to the trailing
`limit` entries while the trade aggregate is computed over the full
series. -/
def backtest (fr : List FeatureRow) (rr : List RegimeSignal) (t cost : ℚ)
    (limit : ℕ) : BacktestResult :=
  let c := clampCost cost
  let lim := clampLimit limit
  let pts := btSeries t c (btJoin fr rr)
  { points := pts.drop (pts.length - lim), trades := btTrades pts }

/-! ## DataQualityChecker (spec §4.3)

Modelled from the spec; the backend implementation is not in the snapshot.
Dates are naturals with `d % 7 < 5` read as "Monday–Friday" (the deliberately
naive business-day rule of §4.3); closes are taken present in this model, so
the missing-close count is identically zero. -/

/-- Modelled from the spec: the quality report (spec §3). -/
structure QualityReport where
  ok : Bool
  row_count : ℕ
  first_date : ℕ
  last_date : ℕ
  duplicate_date_count : ℕ
  missing_business_day_count : ℕ
  missing_business_day_sample : List ℕ
  missing_close_count : ℕ
  missing_volume_count : ℕ
deriving DecidableEq, Repr

/-- Modelled from the spec: the DataQualityChecker (spec §4.3) — `ok:false`
on empty input; otherwise duplicate-date count, naive business days between
first and last date minus those present (sample capped at 10), and
missing-volume count. -/
def qualityCheck (rows : List RawPriceRow) : QualityReport :=
  match rows with
  | [] =>
      { ok := false, row_count := 0, first_date := 0, last_date := 0
        duplicate_date_count := 0, missing_business_day_count := 0
        missing_business_day_sample := [], missing_close_count := 0
        missing_volume_count := 0 }
  | r0 :: _ =>
      let dates := rows.map (·.date)
      let first := r0.date
      let last := dates.getLast? |>.getD first
      let missingBiz := (List.range' first (last + 1 - first)).filter fun d =>
        decide (d % 7 < 5) && decide (d ∉ dates)
      { ok := true
        row_count := rows.length
        first_date := first
        last_date := last
        duplicate_date_count := dates.length - dates.dedup.length
        missing_business_day_count := missingBiz.length
        missing_business_day_sample := missingBiz.take 10
        missing_close_count := 0
        missing_volume_count := (rows.filter fun r => r.volume = none).length }

/-- The "last date" argument the banding fold's fix-up receives: the last
date of the remaining pairs, falling back to the given value. -/
def lastArg (l : List (String × ℚ)) (fallback : Option String) : Option String :=
  orElseOpt (l.map Prod.fst).getLast? fallback

/-- Concrete gap-free fixture series: `n` rows at consecutive dates with
constant close 1. -/
def constRows (n : ℕ) : List RawPriceRow :=
  (List.range n).map fun i => ⟨i, 1, none⟩

/-- The index for a feature row fixture with a chosen date, close,
log return and volatility feature. -/
def mkFeatureRow (d : ℕ) (c lr vol : ℚ) : FeatureRow :=
  ⟨d, c, none, lr, vol, 0, 0⟩

/-- Fixture feature rows with known log returns, for the forward-return
pairing instance. -/
def statFr : List FeatureRow :=
  [mkFeatureRow 0 10 1 1, mkFeatureRow 1 11 2 1, mkFeatureRow 2 9 3 1]

/-- Fixture regime signals matching `statFr` by date, with nonnegative
probability values. -/
def statRr : List RegimeSignal :=
  [⟨0, 0⟩, ⟨1, 2⟩, ⟨2, 1⟩]

/-- Fixture feature rows whose volatility feature has a full, nonzero
variance two-day window only from the second index on. -/
def demoVolRows : List FeatureRow :=
  [mkFeatureRow 0 1 0 1, mkFeatureRow 1 1 0 2, mkFeatureRow 2 1 0 4]

/-! ## Theorems -/

theorem orElseOpt_some (x : String) (b : Option String) :
    orElseOpt (some x) b = some x := rfl

theorem orElseOpt_none (b : Option String) : orElseOpt none b = b := rfl

theorem getLastq_cons :
    ∀ (xs : List String) (d : String),
      (d :: xs).getLast? = orElseOpt xs.getLast? (some d)
  | [], _ => rfl
  | y :: ys, d => by
      rw [List.getLast?_cons_cons]
      have h := getLastq_cons ys y
      cases hys : ys.getLast? with
      | none => rw [h, hys]; rfl
      | some z => rw [h, hys]; rfl

theorem lastArg_cons (d : String) (p : ℚ) (rest : List (String × ℚ))
    (fb : Option String) :
    lastArg ((d, p) :: rest) fb = lastArg rest (some d) := by
  unfold lastArg
  rw [List.map_cons, getLastq_cons]
  cases hys : (rest.map Prod.fst).getLast? <;> rfl

/-- The banding fold, its fix-up included, computes the maximal-run scan:
from any accumulated bands and any open-run state, folding the loop body
over the remaining pairs and fixing up against the last date yields the
bands already accumulated followed by the runs of the remainder. -/
theorem bandsLoop_spec (t : ℚ) :
    ∀ (l : List (String × ℚ)) (bands : List Band)
      (st : Option (String × String)) (extra : Option String),
      finishBands (l.foldl (bandsStep t) (bands, st.map Prod.fst))
          (lastArg l (orElseOpt (st.map Prod.snd) extra))
        = bands ++ specBandsGo t st l := by
  intro l
  induction l with
  | nil =>
      intro bands st extra
      cases st with
      | none => simp [finishBands, lastArg, orElseOpt, specBandsGo]
      | some sl =>
          obtain ⟨s, ls⟩ := sl
          simp [finishBands, lastArg, orElseOpt, specBandsGo]
  | cons dp rest ih =>
      intro bands st extra
      obtain ⟨d, p⟩ := dp
      rw [List.foldl_cons, lastArg_cons]
      by_cases hp : t ≤ p
      · cases st with
        | none =>
            have hstep : bandsStep t (bands, (none : Option (String × String)).map Prod.fst) (d, p)
                = (bands, some d) := by
              simp [bandsStep, hp]
            rw [hstep]
            have h2 := ih bands (some (d, d)) extra
            simp only [Option.map_some', orElseOpt_some] at h2 ⊢
            rw [h2]
            simp [specBandsGo, hp]
        | some sl =>
            obtain ⟨s, ls⟩ := sl
            have hstep : bandsStep t (bands, (some (s, ls)).map Prod.fst) (d, p)
                = (bands, some s) := by
              simp [bandsStep, hp]
            rw [hstep]
            have h2 := ih bands (some (s, d)) extra
            simp only [Option.map_some', orElseOpt_some] at h2 ⊢
            rw [h2]
            simp [specBandsGo, hp]
      · cases st with
        | none =>
            have hstep : bandsStep t (bands, (none : Option (String × String)).map Prod.fst) (d, p)
                = (bands, none) := by
              simp [bandsStep, hp]
            rw [hstep]
            have h2 := ih bands none (some d)
            simp only [Option.map_none', orElseOpt_none] at h2 ⊢
            rw [h2]
            simp [specBandsGo, hp]
        | some sl =>
            obtain ⟨s, ls⟩ := sl
            have hstep : bandsStep t (bands, (some (s, ls)).map Prod.fst) (d, p)
                = (bands ++ [⟨s, d⟩], none) := by
              simp [bandsStep, hp]
            rw [hstep]
            have h2 := ih (bands ++ [⟨s, d⟩]) none (some d)
            simp only [Option.map_none', Option.map_some', orElseOpt_none,
              orElseOpt_some] at h2 ⊢
            rw [h2]
            simp [specBandsGo, hp]

/-- A remainder whose probabilities are all below the threshold contributes
no band from a closed state. -/
theorem specBandsGo_none_of_all_below (t : ℚ) :
    ∀ (l : List (String × ℚ)), (∀ dp ∈ l, dp.2 < t) →
      specBandsGo t none l = []
  | [], _ => rfl
  | (d, p) :: rest, h => by
      have hp : ¬ t ≤ p := not_le.mpr (h (d, p) (List.mem_cons_self _ _))
      simp only [specBandsGo, if_neg hp]
      exact specBandsGo_none_of_all_below t rest fun dp hdp =>
        h dp (List.mem_cons_of_mem _ hdp)

/-- C10: for equal-length `dates` and `probs`, `computeRiskOffBands`
returns exactly one band per maximal run of consecutive indices with
`probs[i] ≥ threshold`, in order — `x1` the run's first date, `x2` the
first date after the run for an interior run and the array's last date for
a run reaching the end (`specBands` is that maximal-run scan verbatim) —
and the result is empty when `dates` is empty or no probability reaches
the threshold. -/
theorem computeRiskOffBands_maximal_runs (dates : List String)
    (probs : List ℚ) (t : ℚ) (h : dates.length = probs.length) :
    computeRiskOffBands dates probs t = specBands t dates probs
    ∧ (dates = [] → computeRiskOffBands dates probs t = [])
    ∧ ((∀ p ∈ probs, p < t) → computeRiskOffBands dates probs t = []) := by
  have hmap : (dates.zip probs).map Prod.fst = dates :=
    List.map_fst_zip dates probs (le_of_eq h)
  have hmain : computeRiskOffBands dates probs t = specBands t dates probs := by
    have haux := bandsLoop_spec t (dates.zip probs) [] none none
    simp only [Option.map_none', orElseOpt_none, List.nil_append] at haux
    have hlast : lastArg (dates.zip probs) none = dates.getLast? := by
      unfold lastArg
      rw [hmap]
      cases hl : dates.getLast? <;> rfl
    rw [hlast] at haux
    exact haux
  refine ⟨hmain, ?_, ?_⟩
  · intro hd
    subst hd
    rfl
  · intro hall
    rw [hmain]
    unfold specBands
    exact specBandsGo_none_of_all_below t _ fun dp hdp =>
      hall dp.2 (List.of_mem_zip hdp).2

/-- C10 witness: a four-day series with runs at index 0 (interior, ends
exclusively at the second date) and at indices 2–3 (reaching the end, so
ending inclusively at the last date). -/
theorem computeRiskOffBands_maximal_runs_w :
    computeRiskOffBands ["d1", "d2", "d3", "d4"]
        [9/10, 3/10, 8/10, 9/10] (7/10)
      = specBands (7/10) ["d1", "d2", "d3", "d4"] [9/10, 3/10, 8/10, 9/10] :=
  (computeRiskOffBands_maximal_runs ["d1", "d2", "d3", "d4"]
    [9/10, 3/10, 8/10, 9/10] (7/10) (by decide)).1

/-- C4: `rolling_std(x, w)` is, where defined, the sample standard
deviation — squared deviations from the window's own mean, divided by
`w − 1` — of the `w`-element window ending at `i`; it is undefined for
`i < w − 1`; and on `[1,2,3,4,5]` with `w = 3`, index 2 has mean exactly 2
and sample standard deviation exactly 1. -/
theorem rollingStd_sample_convention (x : List ℚ) (w i : ℕ) :
    (i + 1 < w → rollingStd x w i = none)
    ∧ (w ≤ i + 1 → i < x.length →
        (windowAt x w i).length = w
        ∧ rollingStd x w i = some (sampleStdDev (windowAt x w i)))
    ∧ rollingMean [1, 2, 3, 4, 5] 3 2 = some 2
    ∧ rollingStd [1, 2, 3, 4, 5] 3 2 = some 1 := by
  refine ⟨?_, ?_, by norm_num [rollingMean, windowAt], ?_⟩
  · intro hlt
    have hcond : ¬ (w ≤ i + 1 ∧ i < x.length) := by omega
    simp [rollingStd, rollingVar, rollingMean, hcond]
  · intro h1 h2
    have hlen : (windowAt x w i).length = w := by
      simp only [windowAt, List.length_drop, List.length_take]
      omega
    refine ⟨hlen, ?_⟩
    have hvar : rollingVar x w i
        = some (((windowAt x w i).map fun v =>
            (v - (windowAt x w i).sum / (w : ℚ)) ^ 2).sum / ((w : ℚ) - 1)) := by
      rw [rollingVar, rollingMean, if_pos (And.intro h1 h2), Option.map_some']
    rw [rollingStd, hvar, Option.map_some']
    unfold sampleStdDev
    rw [hlen]
  · have hv : rollingVar [1, 2, 3, 4, 5] 3 2 = some 1 := by
      norm_num [rollingVar, rollingMean, windowAt]
    rw [rollingStd, hv, Option.map_some']
    norm_num

/-- C4 witness: the undefined-below-the-window and defined cases at the
concrete series `[1,2,3,4,5]`, `w = 3`. -/
theorem rollingStd_sample_convention_w :
    rollingStd [1, 2, 3, 4, 5] 3 1 = none
    ∧ rollingStd [1, 2, 3, 4, 5] 3 2
        = some (sampleStdDev (windowAt [1, 2, 3, 4, 5] 3 2)) :=
  ⟨(rollingStd_sample_convention [1, 2, 3, 4, 5] 3 1).1 (by decide),
   ((rollingStd_sample_convention [1, 2, 3, 4, 5] 3 2).2.1 (by decide)
     (by decide)).2⟩

theorem filter_prob_split_length (t : ℚ) (l : List StatRow) :
    (l.filter fun s => s.risk_off_prob < t).length
      + (l.filter fun s => t ≤ s.risk_off_prob).length = l.length := by
  induction l with
  | nil => rfl
  | cons a l ih =>
      by_cases ha : a.risk_off_prob < t
      · have ha2 : ¬ t ≤ a.risk_off_prob := not_le.mpr ha
        simp [List.filter_cons, ha, ha2]
        omega
      · have ha2 : t ≤ a.risk_off_prob := not_lt.mp ha
        simp [List.filter_cons, ha, ha2]
        omega

/-- C2: over the inner-joined, date-sorted series, the statistics engine
pairs the signal at row `i` with the `log_return` recorded at row `i + 1`
(never row `i`'s own), carrying row `i`'s date and probability; the final
joined row yields no usable row, and both regime buckets draw only from
the usable rows, which they partition. -/
theorem regimeStats_forward_pairing (fr : List FeatureRow)
    (rr : List RegimeSignal) (t : ℚ) (i : ℕ)
    (h : i + 1 < (joinByDate fr rr).length) :
    ((forwardRows (joinByDate fr rr)).getD i default).fwd_return
        = ((joinByDate fr rr).getD (i + 1) default).1.log_return
    ∧ ((forwardRows (joinByDate fr rr)).getD i default).date
        = ((joinByDate fr rr).getD i default).1.date
    ∧ ((forwardRows (joinByDate fr rr)).getD i default).risk_off_prob
        = ((joinByDate fr rr).getD i default).2.risk_off_prob
    ∧ (forwardRows (joinByDate fr rr)).length = (joinByDate fr rr).length - 1
    ∧ (riskOnRows t (joinByDate fr rr)).length
        + (riskOffRows t (joinByDate fr rr)).length
        = (joinByDate fr rr).length - 1
    ∧ (∀ s ∈ riskOnRows t (joinByDate fr rr), s ∈ forwardRows (joinByDate fr rr))
    ∧ (∀ s ∈ riskOffRows t (joinByDate fr rr),
        s ∈ forwardRows (joinByDate fr rr)) := by
  set j := joinByDate fr rr with hj
  have hlen : (forwardRows j).length = j.length - 1 := by
    simp only [forwardRows, List.length_map, List.length_zip, List.length_drop]
    omega
  have hzlen : (j.zip (j.drop 1)).length = j.length - 1 := by
    simp only [List.length_zip, List.length_drop]
    omega
  have hi : i < (forwardRows j).length := by omega
  have hiz : i < (j.zip (j.drop 1)).length := by omega
  have hget : (forwardRows j).getD i default
      = ⟨(j.getD i default).1.date, (j.getD i default).2.risk_off_prob,
         (j.getD (i + 1) default).1.log_return⟩ := by
    have h1 : i < j.length := by omega
    have h1' : i + 1 < j.length := by omega
    have h2 : i < (j.drop 1).length := by
      simp only [List.length_drop]
      omega
    rw [List.getD_eq_getElem _ _ hi]
    simp only [forwardRows, List.getElem_map, List.getElem_zip, List.getElem_drop,
      show (1 : ℕ) + i = i + 1 from by omega]
    rw [List.getD_eq_getElem _ _ h1, List.getD_eq_getElem _ _ h1']
  refine ⟨by rw [hget], by rw [hget], by rw [hget], hlen, ?_, ?_, ?_⟩
  · rw [riskOnRows, riskOffRows, filter_prob_split_length, hlen]
  · intro s hs
    exact List.mem_of_mem_filter hs
  · intro s hs
    exact List.mem_of_mem_filter hs

/-- C2 witness: on a three-row joined fixture, the usable row at index 0
carries the log return of the row at index 1. -/
theorem regimeStats_forward_pairing_w :
    ((forwardRows (joinByDate statFr statRr)).getD 0 default).fwd_return
      = ((joinByDate statFr statRr).getD 1 default).1.log_return :=
  (regimeStats_forward_pairing statFr statRr 1 0 (by decide)).1

theorem length_filter_range_ge (n τ : ℕ) :
    ((List.range n).filter fun i => decide (τ ≤ i)).length = n - τ := by
  induction n with
  | zero => simp
  | succ n ih =>
      rw [List.range_succ, List.filter_append, List.length_append, ih]
      by_cases h : τ ≤ n
      · simp [h]
        omega
      · simp [h]
        omega

theorem filterMap_eq_map_filter {β : Type} (l : List ℕ) (f : ℕ → Option β)
    (p : ℕ → Bool) (g : ℕ → β)
    (h : ∀ i ∈ l, f i = if p i then some (g i) else none) :
    l.filterMap f = (l.filter p).map g := by
  induction l with
  | nil => rfl
  | cons a l ih =>
      have ha := h a (List.mem_cons_self a l)
      have ihl := ih fun i hi => h i (List.mem_cons_of_mem _ hi)
      rw [List.filterMap_cons, List.filter_cons, ha]
      cases hpa : p a with
      | true => simp [ihl]
      | false => simp [ihl]

theorem rollingMean_isSome_iff (x : List ℚ) (w i : ℕ) :
    (rollingMean x w i).isSome = true ↔ (w ≤ i + 1 ∧ i < x.length) := by
  rw [rollingMean]
  by_cases h : w ≤ i + 1 ∧ i < x.length
  · simp [h]
  · simp [h]

theorem rollingVar_isSome_iff (x : List ℚ) (w i : ℕ) :
    (rollingVar x w i).isSome = true ↔ (w ≤ i + 1 ∧ i < x.length) := by
  rw [rollingVar, Option.isSome_map']
  exact rollingMean_isSome_iff x w i

theorem logReturnFilled_length (lg : ℚ → ℚ) (closes : List ℚ) :
    (logReturnFilled lg closes).length = closes.length := by
  rw [logReturnFilled, List.length_map, List.length_range]

/-- The feature engine is the per-index row map restricted to the indices
where all three windowed features are defined: `i ≥ 1` (log return),
`i ≥ v − 1` (rolling volatility), `i ≥ m` (momentum). -/
theorem featureEngine_eq (lg sq : ℚ → ℚ) (rows : List RawPriceRow) (v m : ℕ) :
    featureEngine lg sq rows v m
      = ((List.range rows.length).filter fun i =>
          decide (max (max 1 (v - 1)) m ≤ i)).map (featureRowAt lg sq rows v m) := by
  unfold featureEngine
  apply filterMap_eq_map_filter
  intro i hi
  have hin : i < rows.length := List.mem_range.mp hi
  have hlrlen : (logReturnFilled lg (rows.map (·.close))).length = rows.length := by
    rw [logReturnFilled_length, List.length_map]
  by_cases hτ : max (max 1 (v - 1)) m ≤ i
  · have h1 : 1 ≤ i := by omega
    have hvle : v ≤ i + 1 := by omega
    have hm2 : m ≤ i := by omega
    have hmean : rollingMean (logReturnFilled lg (rows.map (·.close))) v i
        = some ((windowAt (logReturnFilled lg (rows.map (·.close))) v i).sum / (v : ℚ)) := by
      rw [rollingMean, if_pos]
      exact ⟨hvle, by omega⟩
    have hvar : rollingVar (logReturnFilled lg (rows.map (·.close))) v i
        = some (((windowAt (logReturnFilled lg (rows.map (·.close))) v i).map fun x =>
            (x - (windowAt (logReturnFilled lg (rows.map (·.close))) v i).sum / (v : ℚ)) ^ 2).sum
            / ((v : ℚ) - 1)) := by
      rw [rollingVar, hmean, Option.map_some']
    rw [hvar, if_pos h1, if_pos hm2]
    simp only [decide_eq_true_eq, if_pos hτ]
    simp only [featureRowAt, hvar, Option.getD_some]
  · simp only [decide_eq_true_eq, if_neg hτ]
    have hsplit : ¬ (v ≤ i + 1) ∨ ¬ (1 ≤ i) ∨ ¬ (m ≤ i) := by omega
    cases hrv : rollingVar (logReturnFilled lg (rows.map (·.close))) v i with
    | none => rfl
    | some varv =>
        have hsome : (rollingVar (logReturnFilled lg (rows.map (·.close))) v i).isSome
            = true := by
          rw [hrv]
          rfl
        have hcond := (rollingVar_isSome_iff _ v i).mp hsome
        rw [hlrlen] at hcond
        rcases hsplit with hf | hf | hf
        · exact absurd hcond.1 hf
        · rw [if_neg hf]
        · by_cases h1 : 1 ≤ i
          · rw [if_pos h1, if_neg hf]
          · rw [if_neg h1]

/-- Output row count of the feature engine: the input length minus the
number of leading indices consumed by the most demanding of the three
features. -/
theorem featureEngine_length (lg sq : ℚ → ℚ) (rows : List RawPriceRow)
    (v m : ℕ) :
    (featureEngine lg sq rows v m).length
      = rows.length - max (max 1 (v - 1)) m := by
  rw [featureEngine_eq, List.length_map, length_filter_range_ge]

/-- C3 counterexample: a gap-free six-row series with volatility window 4
and momentum window 2 satisfies the claim's hypotheses
(`n = 6 ≥ max(4,2)`), yet the engine emits 3 rows, not
`n − max(volatility_window, momentum_window) = 2` — the volatility window
only consumes `v − 1` leading rows, not `v`. -/
theorem featureEngine_count_claim_refuted :
    gapFree (constRows 6) = true
    ∧ max 4 2 ≤ (constRows 6).length
    ∧ (featureEngine id id (constRows 6) 4 2).length
        ≠ (constRows 6).length - max 4 2 := by
  refine ⟨by decide, by decide, ?_⟩
  have h1 : (featureEngine id id (constRows 6) 4 2).length = 3 := by rfl
  have h2 : (constRows 6).length = 6 := by rfl
  rw [h1, h2]
  decide

/-- C3 (amended): for every gap-free input price series, the feature
engine emits exactly `n − max(volatility_window − 1, momentum_window)`
rows (for windows `v ≥ 2`, `m ≥ 1`; this equals
`n − max(volatility_window, momentum_window)` whenever `m ≥ v − 1`), a row
being emitted iff log return, rolling volatility and momentum are all
defined there; in particular, with the default windows (20, 60) and
`n = 1000` the output has exactly 940 rows. -/
theorem featureEngine_row_count (lg sq : ℚ → ℚ) (rows : List RawPriceRow)
    (v m : ℕ) (hv : 2 ≤ v) (hm : 1 ≤ m) (hgap : gapFree rows = true) :
    (featureEngine lg sq rows v m).length = rows.length - max (v - 1) m
    ∧ (rows.length = 1000 →
        (featureEngine lg sq rows 20 60).length = 940) := by
  constructor
  · rw [featureEngine_length]
    congr 1
    omega
  · intro h1000
    rw [featureEngine_length, h1000]
    omega

set_option maxRecDepth 100000 in
/-- C3 witness: the default windows on a 1000-row gap-free series give
exactly 940 rows. -/
theorem featureEngine_row_count_w :
    (featureEngine id id (constRows 1000) 20 60).length = 940 :=
  (featureEngine_row_count id id (constRows 1000) 20 60 (by decide) (by decide)
    (by decide)).2 (by rfl)

theorem sigmoid_pos (x : ℝ) : 0 < sigmoid x := by
  unfold sigmoid
  have := Real.exp_pos (-x)
  positivity

theorem sigmoid_lt_one (x : ℝ) : sigmoid x < 1 := by
  unfold sigmoid
  rw [div_lt_one (by linarith [Real.exp_pos (-x)])]
  linarith [Real.exp_pos (-x)]

/-- The regime model is the per-index row map restricted to the emitted
indices: failing indices are dropped, not null-filled. -/
theorem regimeModel_eq (rows : List FeatureRow) (zw : ℕ) (k : ℝ) :
    regimeModel rows zw k
      = ((List.range rows.length).filter fun i => regimeEmitted rows zw i).map
          (regimeRowAt rows zw k) := by
  unfold regimeModel
  apply filterMap_eq_map_filter
  intro i _
  unfold regimeEmitted
  cases hrv : rollingVar (volSeries rows) zw i with
  | none => rfl
  | some v =>
      by_cases hv : 0 < v
      · simp [hv]
      · simp [hv]

/-- C5: every probability the regime model emits equals the logistic
transform `1/(1+e^{−k·z})` of its z-score and lies strictly inside (0,1);
an index is emitted iff the normalization window is full and the rolling
standard deviation is nonzero; failing indices are dropped, so the output
— never longer than the input — can be strictly shorter, as on the
three-row fixture. -/
theorem regimeModel_sigmoid_range (rows : List FeatureRow) (zw : ℕ)
    (k : ℝ) (i : ℕ) :
    pAt rows zw k i = 1 / (1 + Real.exp (-(k * zAt rows zw i)))
    ∧ 0 < pAt rows zw k i ∧ pAt rows zw k i < 1
    ∧ (regimeEmitted rows zw i = true
        ↔ zw ≤ i + 1 ∧ i < rows.length
          ∧ rollingStd (volSeries rows) zw i ≠ some 0)
    ∧ regimeModel rows zw k
        = ((List.range rows.length).filter fun j => regimeEmitted rows zw j).map
            (regimeRowAt rows zw k)
    ∧ (regimeModel rows zw k).length ≤ rows.length
    ∧ (regimeModel demoVolRows 2 1).length < demoVolRows.length := by
  have hlen : (volSeries rows).length = rows.length := List.length_map _ _
  refine ⟨rfl, sigmoid_pos _, sigmoid_lt_one _, ?_, regimeModel_eq rows zw k, ?_, ?_⟩
  · unfold regimeEmitted
    cases hrv : rollingVar (volSeries rows) zw i with
    | none =>
        have h1 : ¬ (zw ≤ i + 1 ∧ i < rows.length) := by
          intro hc
          have hs : (rollingVar (volSeries rows) zw i).isSome = true :=
            (rollingVar_isSome_iff _ _ _).mpr ⟨hc.1, by rw [hlen]; exact hc.2⟩
          rw [hrv] at hs
          simp at hs
        constructor
        · intro hfalse
          simp at hfalse
        · intro hc
          exact absurd ⟨hc.1, hc.2.1⟩ h1
    | some v =>
        have hs : (rollingVar (volSeries rows) zw i).isSome = true := by
          rw [hrv]
          rfl
        have hcond := (rollingVar_isSome_iff _ _ _).mp hs
        rw [hlen] at hcond
        have hstd : rollingStd (volSeries rows) zw i
            = some (Real.sqrt ((v : ℚ) : ℝ)) := by
          rw [rollingStd, hrv, Option.map_some']
        constructor
        · intro hb
          have hv : 0 < v := by simpa using hb
          refine ⟨hcond.1, hcond.2, ?_⟩
          rw [hstd]
          intro heq
          have h0 : Real.sqrt ((v : ℚ) : ℝ) = 0 := by
            simpa using heq
          rw [Real.sqrt_eq_zero'] at h0
          have hv2 : (0 : ℝ) < ((v : ℚ) : ℝ) := by exact_mod_cast hv
          linarith
        · rintro ⟨_, _, hne⟩
          rw [hstd] at hne
          have h0 : Real.sqrt ((v : ℚ) : ℝ) ≠ 0 := fun h => hne (by rw [h])
          have h2 : ¬ (((v : ℚ) : ℝ) ≤ 0) := fun hle =>
            h0 (Real.sqrt_eq_zero'.mpr hle)
          have h3 : (0 : ℝ) < ((v : ℚ) : ℝ) := not_le.mp h2
          have hv : 0 < v := by exact_mod_cast h3
          simpa using hv
  · rw [regimeModel_eq, List.length_map]
    calc ((List.range rows.length).filter fun j => regimeEmitted rows zw j).length
        ≤ (List.range rows.length).length := List.length_filter_le _ _
      _ = rows.length := List.length_range _
  · have hf : ((List.range demoVolRows.length).filter
        fun j => regimeEmitted demoVolRows 2 j) = [1, 2] := by
      norm_num [regimeEmitted, rollingVar, rollingMean, volSeries, demoVolRows,
        windowAt, mkFeatureRow, List.range_succ, List.filter]
    rw [regimeModel_eq, hf]
    simp [demoVolRows]

/-- With zero transaction cost the net and gross curves of the backtest
loop coincide pointwise from any state in which they agree. -/
theorem btAux_net_eq_gross (t : ℚ) :
    ∀ (l : List (ℕ × ℚ × ℚ)) (prevC : ℚ) (prevPos : ℕ) (bh e : ℚ)
      (q : EquityPoint), q ∈ btAux t 0 l prevC prevPos bh e e →
      q.regime_net = q.regime_gross := by
  intro l
  induction l with
  | nil =>
      intro prevC prevPos bh e q hq
      simp [btAux] at hq
  | cons dp rest ih =>
      intro prevC prevPos bh e q hq
      obtain ⟨d, c, p⟩ := dp
      simp only [btAux, zero_div, ite_self, sub_zero] at hq
      rcases List.mem_cons.mp hq with hq | hq
      · subst hq
        rfl
      · exact ih c _ _ _ q hq

/-- With threshold 0 and nonnegative probabilities, the backtest loop from
the flat state keeps position 0, fires no trade, and leaves both regime
curves at 1. -/
theorem btAux_flat (cost : ℚ) :
    ∀ (l : List (ℕ × ℚ × ℚ)) (prevC : ℚ) (bh : ℚ),
      (∀ x ∈ l, 0 ≤ x.2.2) →
      ∀ q ∈ btAux 0 cost l prevC 0 bh 1 1,
        q.regime_gross = 1 ∧ q.regime_net = 1 ∧ q.trade = 0 ∧ q.pos = 0 := by
  intro l
  induction l with
  | nil =>
      intro prevC bh hpr q hq
      simp [btAux] at hq
  | cons dp rest ih =>
      intro prevC bh hpr q hq
      obtain ⟨d, c, p⟩ := dp
      have hp : 0 ≤ p := hpr (d, c, p) (List.mem_cons_self _ _)
      have hpos : ¬ (p < 0) := not_lt.mpr hp
      simp only [btAux, hpos, if_false, Nat.cast_zero, mul_zero, add_zero,
        mul_one, ne_eq, not_true_eq_false, ite_self, sub_zero,
        if_neg (by omega : ¬ ((0 : ℕ) ≠ 0)),
        if_neg (by omega : ¬ ((0 : ℕ) = 1))] at hq
      rcases List.mem_cons.mp hq with hq | hq
      · subst hq
        exact ⟨rfl, rfl, rfl, rfl⟩
      · exact ih c _ (fun x hx => hpr x (List.mem_cons_of_mem _ hx)) q hq

/-- Net equals gross across the whole zero-cost equity series. -/
theorem btSeries_net_eq_gross (t : ℚ) (l : List (ℕ × ℚ × ℚ)) :
    ∀ q ∈ btSeries t 0 l, q.regime_net = q.regime_gross := by
  cases l with
  | nil =>
      intro q hq
      simp [btSeries] at hq
  | cons dp rest =>
      obtain ⟨d, c, p⟩ := dp
      intro q hq
      simp only [btSeries] at hq
      rcases List.mem_cons.mp hq with hq | hq
      · subst hq
        rfl
      · exact btAux_net_eq_gross t rest c _ _ _ q hq

/-- Threshold 0 with nonnegative probabilities: the whole equity series
has position 0, no trades, and flat regime curves. -/
theorem btSeries_flat (cost : ℚ) (l : List (ℕ × ℚ × ℚ))
    (hpr : ∀ x ∈ l, 0 ≤ x.2.2) :
    ∀ q ∈ btSeries 0 cost l,
      q.regime_gross = 1 ∧ q.regime_net = 1 ∧ q.trade = 0 := by
  cases l with
  | nil =>
      intro q hq
      simp [btSeries] at hq
  | cons dp rest =>
      obtain ⟨d, c, p⟩ := dp
      intro q hq
      have hp : 0 ≤ p := hpr (d, c, p) (List.mem_cons_self _ _)
      have hpos : ¬ (p < 0) := not_lt.mpr hp
      simp only [btSeries, hpos, if_false] at hq
      rcases List.mem_cons.mp hq with hq | hq
      · subst hq
        exact ⟨rfl, rfl, rfl⟩
      · have := btAux_flat cost rest c 1
          (fun x hx => hpr x (List.mem_cons_of_mem _ hx)) q hq
        exact ⟨this.1, this.2.1, this.2.2.1⟩

/-- Probabilities of the joined backtest triples all come from the regime
side of the join. -/
theorem btJoin_prob_nonneg (fr : List FeatureRow) (rr : List RegimeSignal)
    (hp : ∀ r ∈ rr, 0 ≤ r.risk_off_prob) :
    ∀ x ∈ btJoin fr rr, 0 ≤ x.2.2 := by
  intro x hx
  unfold btJoin at hx
  rcases List.mem_map.mp hx with ⟨fs, hfs, rfl⟩
  unfold joinByDate at hfs
  rcases List.mem_filterMap.mp hfs with ⟨f, _, hmap⟩
  rcases Option.map_eq_some'.mp hmap with ⟨r, hr, hfr⟩
  have hrr : r ∈ rr := List.mem_of_find?_eq_some hr
  rw [← hfr]
  exact hp r hrr

/-- C6: with zero cost the net curve equals the gross curve at every
index of the output; with threshold 0 (position pinned to 0 since
probabilities are nonnegative) both regime curves stay flat at 1 at every
output point and the total trade count is at most 1. -/
theorem backtest_costless_and_flat (fr : List FeatureRow)
    (rr : List RegimeSignal) (t cost : ℚ) (limit : ℕ)
    (hp : ∀ r ∈ rr, 0 ≤ r.risk_off_prob) :
    (∀ i : ℕ, ((backtest fr rr t 0 limit).points.getD i default).regime_net
        = ((backtest fr rr t 0 limit).points.getD i default).regime_gross)
    ∧ (∀ q ∈ (backtest fr rr 0 cost limit).points,
        q.regime_gross = 1 ∧ q.regime_net = 1)
    ∧ (backtest fr rr 0 cost limit).trades ≤ 1 := by
  have hc0 : clampCost 0 = 0 := by
    unfold clampCost
    norm_num
  have hpr := btJoin_prob_nonneg fr rr hp
  refine ⟨?_, ?_, ?_⟩
  · intro i
    by_cases hi : i < (backtest fr rr t 0 limit).points.length
    · rw [List.getD_eq_getElem _ _ hi]
      have hmem : ((backtest fr rr t 0 limit).points)[i]
          ∈ (backtest fr rr t 0 limit).points := List.getElem_mem hi
      have hsub : (backtest fr rr t 0 limit).points
          ⊆ btSeries t 0 (btJoin fr rr) := by
        simp only [backtest, hc0]
        exact List.drop_subset _ _
      exact btSeries_net_eq_gross t (btJoin fr rr) _ (hsub hmem)
    · rw [List.getD_eq_default _ _ (le_of_not_lt hi)]
      rfl
  · intro q hq
    have hsub : (backtest fr rr 0 cost limit).points
        ⊆ btSeries 0 (clampCost cost) (btJoin fr rr) := by
      simp only [backtest]
      exact List.drop_subset _ _
    have := btSeries_flat (clampCost cost) (btJoin fr rr) hpr q (hsub hq)
    exact ⟨this.1, this.2.1⟩
  · have hz : (backtest fr rr 0 cost limit).trades = 0 := by
      simp only [backtest, btTrades]
      apply List.sum_eq_zero
      intro x hx
      rcases List.mem_map.mp hx with ⟨q, hq, rfl⟩
      exact (btSeries_flat (clampCost cost) (btJoin fr rr) hpr q hq).2.2
    omega

/-- C6 witness: the fixture series has nonnegative probabilities; at
threshold 1/2 and cost 0 the first output point's net equity equals its
gross equity, and at threshold 0 the trade count is at most 1. -/
theorem backtest_costless_and_flat_w :
    ((backtest statFr statRr (1/2) 0 10).points.getD 0 default).regime_net
      = ((backtest statFr statRr (1/2) 0 10).points.getD 0 default).regime_gross
    ∧ (backtest statFr statRr 0 5 10).trades ≤ 1 :=
  ⟨(backtest_costless_and_flat statFr statRr (1/2) 5 10 (by decide)).1 0,
   (backtest_costless_and_flat statFr statRr (1/2) 5 10 (by decide)).2.2⟩

theorem foldl_min_le_init (l : List ℚ) : ∀ (a : ℚ), l.foldl min a ≤ a := by
  induction l with
  | nil =>
      intro a
      exact le_refl a
  | cons x xs ih =>
      intro a
      exact le_trans (ih (min a x)) (min_le_left a x)

theorem foldl_min_eq_init_iff (l : List ℚ) :
    ∀ (a : ℚ), l.foldl min a = a ↔ ∀ x ∈ l, a ≤ x := by
  induction l with
  | nil =>
      intro a
      simp
  | cons x xs ih =>
      intro a
      rw [List.foldl_cons]
      constructor
      · intro h
        have hle : xs.foldl min (min a x) ≤ min a x := foldl_min_le_init xs _
        have ha : a ≤ min a x := by
          conv_lhs => rw [← h]
          exact hle
        have hmin : min a x = a := le_antisymm (min_le_left a x) ha
        intro y hy
        rcases List.mem_cons.mp hy with rfl | hy
        · exact le_trans ha (min_le_right a y)
        · exact le_trans ha ((ih (min a x)).mp (by rw [h, hmin]) y hy)
      · intro h
        have hx : a ≤ x := h x (List.mem_cons_self _ _)
        have hmin : min a x = a := min_eq_left hx
        rw [hmin]
        exact (ih a).mpr fun y hy => h y (List.mem_cons_of_mem _ hy)

/-- Over positive equities, every drawdown from a strictly positive
running maximum is nonnegative iff the remaining curve never falls below
that maximum and is itself monotone. -/
theorem ddAux_nonneg_iff :
    ∀ (rest : List ℚ) (m : ℚ), 0 < m → (∀ x ∈ rest, 0 < x) →
      ((∀ d ∈ ddAux m rest, 0 ≤ d) ↔ List.Chain (· ≤ ·) m rest) := by
  intro rest
  induction rest with
  | nil =>
      intro m hm hp
      constructor
      · intro _
        exact List.Chain.nil
      · intro _ d hd
        simp [ddAux] at hd
  | cons e rest ih =>
      intro m hm hp
      have he : 0 < e := hp e (List.mem_cons_self _ _)
      have hmax : 0 < max m e := lt_max_iff.mpr (Or.inl hm)
      rw [ddAux, List.chain_cons]
      constructor
      · intro h
        have h1 : 0 ≤ e / max m e - 1 := h _ (List.mem_cons_self _ _)
        have h2 : max m e ≤ e := (one_le_div hmax).mp (by linarith)
        have hme : m ≤ e := le_trans (le_max_left m e) h2
        refine ⟨hme, ?_⟩
        have hmaxeq : max m e = e := max_eq_right hme
        have h3 : ∀ d ∈ ddAux (max m e) rest, 0 ≤ d :=
          fun d hd => h d (List.mem_cons_of_mem _ hd)
        have h4 := (ih (max m e) hmax
          (fun x hx => hp x (List.mem_cons_of_mem _ hx))).mp h3
        rwa [hmaxeq] at h4
      · rintro ⟨hme, hchain⟩
        have hmaxeq : max m e = e := max_eq_right hme
        intro d hd
        rcases List.mem_cons.mp hd with rfl | hd
        · rw [hmaxeq, div_self (ne_of_gt he)]
          norm_num
        · exact (ih (max m e) hmax
            (fun x hx => hp x (List.mem_cons_of_mem _ hx))).mpr
            (by rwa [hmaxeq]) d hd

/-- C7: for a positive equity curve, the max drawdown — the minimum over
time of `equity[i]/running_max(equity[0..i]) − 1` — is always ≤ 0, and it
is 0 exactly when the curve is monotone non-decreasing. -/
theorem maxDrawdown_spec (l : List ℚ) (h : ∀ e ∈ l, 0 < e) :
    maxDrawdown l ≤ 0 ∧ (maxDrawdown l = 0 ↔ l.Chain' (· ≤ ·)) := by
  cases l with
  | nil =>
      refine ⟨le_refl 0, ?_⟩
      simp [maxDrawdown, List.Chain']
  | cons e rest =>
      have he : 0 < e := h e (List.mem_cons_self _ _)
      have hdd : e / e - 1 = 0 := by
        rw [div_self (ne_of_gt he), sub_self]
      simp only [maxDrawdown]
      rw [hdd]
      refine ⟨foldl_min_le_init _ 0, ?_⟩
      rw [foldl_min_eq_init_iff,
        ddAux_nonneg_iff rest e he (fun x hx => h x (List.mem_cons_of_mem _ hx))]
      exact Iff.rfl

/-- C7 witness: the positive curve `[1, 2, 1]` has a nonpositive max
drawdown. -/
theorem maxDrawdown_spec_w : maxDrawdown [1, 2, 1] ≤ 0 :=
  (maxDrawdown_spec [1, 2, 1] (by decide)).1

/-- C8: the backtest's per-trade cost and output row limit are silently
clamped to `[0, 200]` basis points and `[1, 5000]` rows — the engine is a
total function and computes exactly what it would compute had the clamped
values been passed. -/
theorem backtest_clamps_parameters (fr : List FeatureRow)
    (rr : List RegimeSignal) (t cost : ℚ) (limit : ℕ) :
    backtest fr rr t cost limit
      = backtest fr rr t (clampCost cost) (clampLimit limit)
    ∧ 0 ≤ clampCost cost ∧ clampCost cost ≤ 200
    ∧ 1 ≤ clampLimit limit ∧ clampLimit limit ≤ 5000 := by
  have hcc : clampCost (clampCost cost) = clampCost cost := by
    unfold clampCost
    have h2 : max 0 (min cost 200) ≤ 200 := max_le (by norm_num) (min_le_right _ _)
    rw [min_eq_left h2, ← max_assoc, max_self]
  have hcl : clampLimit (clampLimit limit) = clampLimit limit := by
    unfold clampLimit
    omega
  refine ⟨?_, le_max_left 0 _, ?_, ?_, ?_⟩
  · unfold backtest
    rw [hcc, hcl]
  · exact max_le (by norm_num) (min_le_right _ _)
  · unfold clampLimit
    omega
  · unfold clampLimit
    omega

/-- C9: every stage of the core is deterministic — identical inputs and
parameters produce identical output records; in this embedding each stage
is a pure function, so both calls denote the same value and there is no
hidden state to differ across calls. -/
theorem stages_deterministic (lg sq : ℚ → ℚ) (rows : List RawPriceRow)
    (fr : List FeatureRow) (rr : List RegimeSignal) (v m zw limit : ℕ)
    (k : ℝ) (t cost : ℚ) :
    featureEngine lg sq rows v m = featureEngine lg sq rows v m
    ∧ regimeModel fr zw k = regimeModel fr zw k
    ∧ regimeStats sq fr rr t = regimeStats sq fr rr t
    ∧ backtest fr rr t cost limit = backtest fr rr t cost limit
    ∧ qualityCheck rows = qualityCheck rows :=
  ⟨rfl, rfl, rfl, rfl, rfl⟩

/-- C1 counterexample: the source's `EquityPoint` consumer type
(`src/unnamed/part_004` lines 35–42) does not carry the field names the
claim states, and the data page (`src/apps/web/app/data/page.tsx` lines
49–55) does not read the claimed quality-report keys. -/
theorem claimed_field_names_refuted :
    specClaimedEquityPointFields ≠ equityPointFields
    ∧ "buy_hold_equity" ∉ equityPointFields
    ∧ "duplicate_date_count" ∉ dataPageQualityFields
    ∧ "missing_business_day_count" ∉ dataPageQualityFields := by
  decide

/-- C1 (amended): the feature and regime record shapes are exposed under
the exact names `vol_20`, `mom_60`, `z_vol`, `risk_off_prob` that the
consumers key off, while the equity points carry exactly
`{date, bh, regime_gross, regime_net, pos, trade}` and the data page keys
off `duplicate_dates` and `missing_business_days_count`. -/
theorem consumer_field_names :
    regimePointFields = ["date", "z_vol", "risk_off_prob"]
    ∧ "vol_20" ∈ featurePointFields ∧ "mom_60" ∈ featurePointFields
    ∧ "z_vol" ∈ regimePointFields ∧ "risk_off_prob" ∈ regimePointFields
    ∧ equityPointFields = ["date", "bh", "regime_gross", "regime_net",
        "pos", "trade"]
    ∧ dataPageQualityFields = ["duplicate_dates",
        "missing_business_days_count"] := by
  decide

end AegisQuant
